import Mathlib

/-!
# Verification of the scriba streaming-transcription pipeline

Shallow embedding of the core of `src/main.rs` (repository `scriba`):
the audio chunking loop, the f32 → i16 sample converter, the recognition
adapter `AudioProcessor::process_audio`, the confidence gate of the result
consumption loop, the typing emitter `TextTyper`, and the transcription
normalizer `enhance_transcription` with its ordered `NUMBER_PATTERNS`
table.

External collaborators (the Vosk engine, the `enigo` keystroke injector,
the `text2num` word-numeral converter) are modelled as parameters or
oracles at their call boundaries, exactly as the source consumes them.
Machine floats (`f32`/`f64`) are modelled by exact rationals plus an
explicit NaN constructor; Rust's saturating `as i16` cast is made
explicit.
-/

/-! ## Chunker (processor task loop, `main.rs` lines 724–749)

The Rust loop:
```
let mut buffer = Vec::new();
const BUFFER_SIZE: usize = 4000;
while let Some(audio_data) = audio_rx.recv().await {
    buffer.extend_from_slice(&audio_data);
    if buffer.len() >= BUFFER_SIZE {
        let chunk: Vec<f32> = buffer.drain(..BUFFER_SIZE).collect();
        ...
    }
}
```
Note the `if` (not `while`): at most one chunk is drained per received
block.  `drain(..BUFFER_SIZE)` removes and yields the first
`BUFFER_SIZE` elements, keeping the rest — i.e. `take`/`drop`. -/

def BUFFER_SIZE : Nat := 4000

/-- One iteration of the processor loop on receipt of `audio_data`:
extend the buffer, then drain a single chunk if the buffer holds at
least `BUFFER_SIZE` samples.  `runPushes chunks buffer pushes` runs the
loop over the list of pushed blocks, accumulating emitted chunks. -/
def runPushes {α : Type} (chunks : List (List α)) (buffer : List α) :
    List (List α) → List (List α) × List α
  | [] => (chunks, buffer)
  | audio_data :: rest =>
    let buffer2 := buffer ++ audio_data
    if BUFFER_SIZE ≤ buffer2.length then
      runPushes (chunks ++ [buffer2.take BUFFER_SIZE]) (buffer2.drop BUFFER_SIZE) rest
    else
      runPushes chunks buffer2 rest

/-- Conservation: emitted chunks followed by the residual buffer are the
initial chunks, initial buffer and all pushed samples, in order. -/
theorem runPushes_conservation {α : Type} (pushes : List (List α)) :
    ∀ (chunks : List (List α)) (buffer : List α),
      (runPushes chunks buffer pushes).1.flatten ++ (runPushes chunks buffer pushes).2
        = chunks.flatten ++ buffer ++ pushes.flatten := by
  induction pushes with
  | nil => intro chunks buffer; simp [runPushes]
  | cons data rest ih =>
    intro chunks buffer
    simp only [runPushes]
    by_cases h : BUFFER_SIZE ≤ (buffer ++ data).length
    · simp only [h, if_true]
      rw [ih]
      simp [List.take_append_drop, List.append_assoc]
    · simp only [h, if_false]
      rw [ih]
      simp [List.append_assoc]

/-- Every chunk ever emitted has length exactly `BUFFER_SIZE` (provided
the initially accumulated chunks do). -/
theorem runPushes_chunk_len {α : Type} (pushes : List (List α)) :
    ∀ (chunks : List (List α)) (buffer : List α),
      (∀ c ∈ chunks, c.length = BUFFER_SIZE) →
      ∀ c ∈ (runPushes chunks buffer pushes).1, c.length = BUFFER_SIZE := by
  induction pushes with
  | nil => intro chunks buffer h; simpa [runPushes] using h
  | cons data rest ih =>
    intro chunks buffer h
    simp only [runPushes]
    by_cases hlen : BUFFER_SIZE ≤ (buffer ++ data).length
    · simp only [hlen, if_true]
      refine ih _ _ ?_
      intro c hc
      rcases List.mem_append.mp hc with hc | hc
      · exact h c hc
      · rcases List.mem_singleton.mp hc with rfl
        simp only [List.length_append] at hlen
        simp only [List.length_take, List.length_append]
        omega
    · simp only [hlen, if_false]
      exact ih _ _ h

/-- If every pushed block holds at most `BUFFER_SIZE` samples and the
buffer starts below `BUFFER_SIZE`, the residual buffer stays below
`BUFFER_SIZE`. -/
theorem runPushes_residual_lt {α : Type} (pushes : List (List α)) :
    ∀ (chunks : List (List α)) (buffer : List α),
      (∀ p ∈ pushes, p.length ≤ BUFFER_SIZE) →
      buffer.length < BUFFER_SIZE →
      (runPushes chunks buffer pushes).2.length < BUFFER_SIZE := by
  induction pushes with
  | nil => intro chunks buffer _ hb; simpa [runPushes] using hb
  | cons data rest ih =>
    intro chunks buffer hp hb
    have hdata : data.length ≤ BUFFER_SIZE := hp data (List.mem_cons_self _ _)
    have hrest : ∀ p ∈ rest, p.length ≤ BUFFER_SIZE :=
      fun p hpmem => hp p (List.mem_cons_of_mem _ hpmem)
    simp only [runPushes]
    by_cases hlen : BUFFER_SIZE ≤ (buffer ++ data).length
    · simp only [hlen, if_true]
      refine ih _ _ hrest ?_
      have h2 : (buffer ++ data).length < BUFFER_SIZE + BUFFER_SIZE := by
        simp only [List.length_append]
        omega
      simp only [List.length_drop]
      omega
    · simp only [hlen, if_false]
      exact ih _ _ hrest (Nat.lt_of_not_le hlen)

/-- C7: for every sequence of pushes into the chunking loop, no sample is
dropped or duplicated: at every point the concatenation of all emitted
chunks followed by the current residual buffer equals the concatenation
of all pushed samples, in push order (FIFO, no reordering). -/
theorem chunker_no_drop_no_dup {α : Type} (pushes : List (List α)) :
    (runPushes ([] : List (List α)) [] pushes).1.flatten
      ++ (runPushes ([] : List (List α)) [] pushes).2
      = pushes.flatten := by
  simpa using runPushes_conservation pushes [] []

/-- C1 counterexample: a single push of 8000 samples has a total sample
count that is a multiple of BUFFER_SIZE = 4000, yet after the push the
residual buffer is not empty (it still holds 4000 samples), because the
loop drains at most one chunk per push (`if`, not `while`). -/
theorem chunker_multiple_residual_counterexample :
    (List.replicate 8000 (0 : Int)).length % BUFFER_SIZE = 0 ∧
    (runPushes ([] : List (List Int)) [] [List.replicate 8000 0]).2 ≠ [] := by
  constructor
  · rw [List.length_replicate]; decide
  · have h48 : BUFFER_SIZE ≤ (List.replicate 8000 (0 : Int)).length := by
      rw [List.length_replicate]; decide
    simp only [runPushes, List.nil_append, List.drop_replicate, h48, if_true]
    intro hcontra
    have hlen := congrArg List.length hcontra
    simp only [List.nil_append, List.length_drop, List.length_replicate,
      List.length_nil, BUFFER_SIZE] at hlen
    omega

/-- C1 (amended): each push drains at most one chunk (a single `if`, not
a `while` loop); provided every pushed block holds at most BUFFER_SIZE
samples, the claimed conclusion holds: whenever the total number of
pushed samples is a multiple of BUFFER_SIZE, the concatenation of all
emitted chunks equals the concatenation of all pushed samples in order
and the residual buffer is empty. -/
theorem chunker_emits_all_of_multiple {α : Type} (pushes : List (List α))
    (hsize : ∀ p ∈ pushes, p.length ≤ BUFFER_SIZE)
    (hmul : pushes.flatten.length % BUFFER_SIZE = 0) :
    (runPushes ([] : List (List α)) [] pushes).1.flatten = pushes.flatten ∧
    (runPushes ([] : List (List α)) [] pushes).2 = [] := by
  have hcons := runPushes_conservation pushes ([] : List (List α)) []
  simp only [List.flatten_nil, List.nil_append] at hcons
  have hlen : ∀ c ∈ (runPushes ([] : List (List α)) [] pushes).1, c.length = BUFFER_SIZE :=
    runPushes_chunk_len pushes [] [] (by intro c hc; simp at hc)
  have hres : (runPushes ([] : List (List α)) [] pushes).2.length < BUFFER_SIZE :=
    runPushes_residual_lt pushes [] [] hsize (by simp [BUFFER_SIZE])
  have hdvd : BUFFER_SIZE ∣ (runPushes ([] : List (List α)) [] pushes).1.flatten.length := by
    rw [List.length_flatten]
    refine List.dvd_sum ?_
    intro x hx
    rcases List.mem_map.mp hx with ⟨c, hc, rfl⟩
    rw [hlen c hc]
  have htot : (runPushes ([] : List (List α)) [] pushes).1.flatten.length
      + (runPushes ([] : List (List α)) [] pushes).2.length = pushes.flatten.length := by
    rw [← List.length_append, hcons]
  have hdvd2 : BUFFER_SIZE ∣ pushes.flatten.length := Nat.dvd_of_mod_eq_zero hmul
  have hresdvd : BUFFER_SIZE ∣ (runPushes ([] : List (List α)) [] pushes).2.length := by
    have hsub := Nat.dvd_sub' hdvd2 hdvd
    have heq : (runPushes ([] : List (List α)) [] pushes).2.length
        = pushes.flatten.length - (runPushes ([] : List (List α)) [] pushes).1.flatten.length := by
      omega
    rw [heq]
    exact hsub
  have hres0 : (runPushes ([] : List (List α)) [] pushes).2.length = 0 :=
    Nat.eq_zero_of_dvd_of_lt hresdvd hres
  have hnil : (runPushes ([] : List (List α)) [] pushes).2 = [] :=
    List.eq_nil_of_length_eq_zero hres0
  refine ⟨?_, hnil⟩
  rw [hnil, List.append_nil] at hcons
  exact hcons

/-- Witness for `chunker_emits_all_of_multiple`: a single push of exactly
4000 samples satisfies both hypotheses and yields one chunk containing
all of them, with an empty residual buffer. -/
theorem chunker_emits_all_of_multiple_witness :
    (∀ p ∈ [List.replicate 4000 (0 : Int)], p.length ≤ BUFFER_SIZE) ∧
    ([List.replicate 4000 (0 : Int)].flatten.length % BUFFER_SIZE = 0) ∧
    ((runPushes ([] : List (List Int)) [] [List.replicate 4000 0]).1.flatten
        = [List.replicate 4000 (0 : Int)].flatten ∧
      (runPushes ([] : List (List Int)) [] [List.replicate 4000 0]).2 = []) := by
  have h1 : ∀ p ∈ [List.replicate 4000 (0 : Int)], p.length ≤ BUFFER_SIZE := by
    intro p hp
    rcases List.mem_singleton.mp hp with rfl
    rw [List.length_replicate]
    decide
  have h2 : [List.replicate 4000 (0 : Int)].flatten.length % BUFFER_SIZE = 0 := by
    rw [List.flatten_cons, List.flatten_nil, List.append_nil, List.length_replicate]
    decide
  exact ⟨h1, h2, chunker_emits_all_of_multiple _ h1 h2⟩

/-! ## Sample Converter (`convert_f32_to_i16`, main.rs lines 152–154)

```
fn convert_f32_to_i16(input: &[f32]) -> Vec<i16> {
    input.iter().map(|&sample| (sample * 32767.0) as i16).collect()
}
```
An `f32` sample is modelled as NaN or a finite float identified with its
exact rational value.  Rust's float→int `as` cast truncates toward zero,
saturates out-of-range values to the target bounds, and maps NaN to 0. -/

/-- Model of an `f32` audio sample: NaN, or a finite value given by its
exact rational.  (Infinities are not produced by the audio callback and
are omitted; they would saturate like out-of-range finite values.) -/
inductive F32 where
  | nan
  | val (q : ℚ)

/-- Truncation toward zero of a rational number. -/
def ratTruncToZero (q : ℚ) : Int :=
  if 0 ≤ q then ⌊q⌋ else ⌈q⌉

/-- Rust's `as i16` cast applied to the exact value of a finite float:
truncate toward zero, then saturate into `[-32768, 32767]`. -/
def i16_cast_sat (x : ℚ) : Int :=
  let t := ratTruncToZero x
  if t < -32768 then -32768 else if 32767 < t then 32767 else t

/-- `(sample * 32767.0) as i16` for one sample; NaN casts to 0.  The f32
product `sample * 32767.0` is modelled by the exact rational product
(the product is exact in f32 for the concrete inputs considered). -/
def sample_to_i16 : F32 → Int
  | .nan => 0
  | .val q => i16_cast_sat (q * 32767)

/-- `convert_f32_to_i16` (main.rs lines 152–154). -/
def convert_f32_to_i16 (input : List F32) : List Int :=
  input.map sample_to_i16

/-- The per-sample conversion described by the spec sentence:
`round(sample * 32767)` saturated to the signed 16-bit range.  Stated
only for comparison against the code's truncating cast. -/
def spec_round_to_i16 (q : ℚ) : Int :=
  max (-32768) (min 32767 (round (q * 32767)))

theorem i16_cast_sat_range (x : ℚ) :
    -32768 ≤ i16_cast_sat x ∧ i16_cast_sat x ≤ 32767 := by
  simp only [i16_cast_sat]
  split_ifs <;> omega

/-- C3 counterexample: at sample 1/2 (exactly representable in f32, and
`0.5 * 32767.0 = 16383.5` is exact in f32) the code truncates to 16383,
while the claimed `round(sample * 32767)` is 16384: the code does not
round. -/
theorem convert_round_counterexample :
    convert_f32_to_i16 [F32.val (1/2)] = [16383] ∧
    spec_round_to_i16 (1/2) = 16384 ∧ (16383 : Int) ≠ 16384 := by
  refine ⟨?_, ?_, by decide⟩
  · have hfloor : ratTruncToZero ((1 : ℚ)/2 * 32767) = 16383 := by
      rw [ratTruncToZero, if_pos (by norm_num)]
      have : ⌊(1 : ℚ)/2 * 32767⌋ = 16383 := by
        rw [Int.floor_eq_iff]; norm_num
      exact this
    simp only [convert_f32_to_i16, List.map_cons, List.map_nil, sample_to_i16,
      i16_cast_sat, hfloor]
    norm_num
  · rw [spec_round_to_i16, round_eq]
    have : ⌊(1 : ℚ)/2 * 32767 + 1/2⌋ = 16384 := by
      rw [Int.floor_eq_iff]; norm_num
    rw [this]
    norm_num

/-- C3 (amended): `convert_f32_to_i16` preserves the input length; every
output value lies in the signed 16-bit range `[-32768, 32767]`; each
element is the deterministic truncation toward zero of
`sample * 32767`, saturated; and NaN maps to the fixed value 0. -/
theorem convert_f32_to_i16_length_range (input : List F32) :
    (convert_f32_to_i16 input).length = input.length ∧
    (∀ y ∈ convert_f32_to_i16 input, -32768 ≤ y ∧ y ≤ 32767) ∧
    sample_to_i16 F32.nan = 0 := by
  refine ⟨by simp [convert_f32_to_i16], ?_, rfl⟩
  intro y hy
  rcases List.mem_map.mp hy with ⟨s, _, rfl⟩
  cases s with
  | nan => constructor <;> simp [sample_to_i16]
  | val q => exact i16_cast_sat_range _

/-! ## Recognition Adapter (`AudioProcessor::process_audio`, lines 65–104)

The Vosk engine is an external oracle; its responses are parameters:
`accept_waveform` is the outcome of `recognizer.accept_waveform(audio)`
(`Err` or a `DecodingState`); `single` is what
`recognizer.result().single()` yields in the `Finalized` state;
`partial_text` is `recognizer.partial_result().partial` in the `Running`
state. -/

/-- `vosk::DecodingState`. -/
inductive DecodingState where
  | Running
  | Finalized
  | Failed
deriving DecidableEq

/-- The single alternative of a Vosk complete result: its text and the
per-word confidence scores (`word.conf` of each recognized word, in
order; `f64` scores modelled as ℚ). -/
structure SingleAlternative where
  text : String
  result : List ℚ
deriving DecidableEq

/-- `TranscriptionResult` (main.rs lines 45–49); `f64` confidence
modelled as ℚ. -/
structure TranscriptionResult where
  text : String
  confidence : ℚ
  is_final : Bool
deriving DecidableEq

/-- `AudioProcessor::process_audio` (lines 65–104): `Err` exactly when
`accept_waveform` errs (the `?` operator); on `Finalized`, a final
result with the first word's confidence (default 0.8) if the single
result exists and its text is non-empty after trimming; on `Running`, a
partial result with confidence 0.5 if the partial text is non-empty
after trimming; otherwise no result. -/
def process_audio (accept_waveform : Except Unit DecodingState)
    (single : Option SingleAlternative) (partial_text : String) :
    Except Unit (Option TranscriptionResult) :=
  match accept_waveform with
  | .error e => .error e
  | .ok .Finalized =>
    match single with
    | some sr =>
      if ¬(sr.text.trim = "") then
        .ok (some ⟨sr.text, sr.result.head?.getD 0.8, true⟩)
      else .ok none
    | none => .ok none
  | .ok .Running =>
    if ¬(partial_text.trim = "") then
      .ok (some ⟨partial_text, 0.5, false⟩)
    else .ok none
  | .ok .Failed => .ok none

/-- C4: `process_audio` returns a result exactly as claimed: a final
result with confidence taken from the first recognized word's score
(0.8 when there is none) iff the engine finalized and the single
result's text is non-empty after trimming; a partial result with
confidence 0.5 iff the engine is running and the partial text is
non-empty after trimming; and no result in every other case (empty
trimmed text, missing single result, `Failed`, engine error). -/
theorem process_audio_characterization
    (accept_waveform : Except Unit DecodingState)
    (single : Option SingleAlternative) (partial_text : String)
    (r : TranscriptionResult) :
    process_audio accept_waveform single partial_text = .ok (some r) ↔
      ((accept_waveform = .ok .Finalized ∧
          ∃ sr, single = some sr ∧ ¬(sr.text.trim = "") ∧
            r = ⟨sr.text, sr.result.head?.getD 0.8, true⟩) ∨
        (accept_waveform = .ok .Running ∧ ¬(partial_text.trim = "") ∧
          r = ⟨partial_text, 0.5, false⟩)) := by
  rcases accept_waveform with e | st
  · simp [process_audio]
  · cases st with
    | Running =>
      by_cases h : partial_text.trim = ""
      · simp [process_audio, h]
      · simp only [process_audio]
        rw [if_pos h]
        constructor
        · intro he
          exact Or.inr ⟨trivial, h, (Option.some.inj (Except.ok.inj he)).symm⟩
        · rintro (⟨hcontra, _⟩ | ⟨_, _, rfl⟩)
          · simp at hcontra
          · rfl
    | Finalized =>
      cases single with
      | none => simp [process_audio]
      | some sr =>
        by_cases h : sr.text.trim = ""
        · simp [process_audio, h]
        · simp only [process_audio]
          rw [if_pos h]
          constructor
          · intro he
            exact Or.inl ⟨trivial, sr, rfl, h, (Option.some.inj (Except.ok.inj he)).symm⟩
          · rintro (⟨_, sr2, hsr, _, rfl⟩ | ⟨hcontra, _⟩)
            · rw [Option.some.inj hsr]
            · simp at hcontra
    | Failed => simp [process_audio]

/-! ## Transcription Normalizer (`enhance_transcription`, lines 645–664)

`NUMBER_PATTERNS` (lines 566–643) is an ordered table of
`(Regex::new(r"\b<phrase>\b"), replacement)` pairs; every phrase is a
fixed sequence of ASCII letters and spaces, so each regex is modelled by
its phrase together with explicit whole-word matching: an occurrence
matches when the characters adjacent to it (where present) are not word
characters (`[A-Za-z0-9_]`).  `Regex::replace_all` replaces all
non-overlapping occurrences left to right in a single scan.
`convert_words_to_numbers` (lines 645–650) calls the external `text2num`
library; it is passed as the oracle `conv`. -/

/-- A regex word character, `[A-Za-z0-9_]` (the class `\b` tests). -/
def isWordChar (c : Char) : Bool :=
  c.isAlphanum || c == '_'

/-- The closing `\b`: the character right after a match of `pat` at the
head of `s`, if any, must not be a word character. -/
def boundaryAfter (pat s : List Char) : Bool :=
  match List.drop pat.length s with
  | [] => true
  | d :: _ => !isWordChar d

/-- Whether the last character of `pat` is a word character: the state
of the scanner's previous-character flag after passing a match. -/
def endsWordChar (pat : List Char) : Bool :=
  match pat.getLast? with
  | some c => isWordChar c
  | none => false

/-- One left-to-right scan of `replace_all` for a whole-word phrase
`pat`: at each position, if the previous character is not a word
character, the input starts with `pat`, and the character after the
match (if any) is not a word character, the occurrence is replaced by
`repl` and scanning resumes after it; otherwise one character is
copied.  `fuel` is the input length: each step consumes at least one
character (the table's phrases are all non-empty), so the fuel is never
exhausted. -/
def replaceScan (pat repl : List Char) : Nat → Bool → List Char → List Char
  | 0, _, s => s
  | _ + 1, _, [] => []
  | fuel + 1, prevWord, c :: cs =>
    if !prevWord && !pat.isEmpty && pat.isPrefixOf (c :: cs)
        && boundaryAfter pat (c :: cs) then
      repl ++ replaceScan pat repl fuel (endsWordChar pat) (List.drop pat.length (c :: cs))
    else
      c :: replaceScan pat repl fuel (isWordChar c) cs

/-- `Regex::replace_all` for a whole-word phrase pattern, on strings. -/
def replaceAll (pat repl s : String) : String :=
  ⟨replaceScan pat.data repl.data s.data.length false s.data⟩

/-- `NUMBER_PATTERNS` (lines 566–643), in source order: each
`Regex::new(r"\b<phrase>\b")` represented by its phrase. -/
def NUMBER_PATTERNS : List (String × String) := [
  ("one thousand", "1000"), ("two thousand", "2000"),
  ("three thousand", "3000"), ("four thousand", "4000"),
  ("five thousand", "5000"), ("six thousand", "6000"),
  ("seven thousand", "7000"), ("eight thousand", "8000"),
  ("nine thousand", "9000"),
  ("one hundred", "100"), ("two hundred", "200"),
  ("three hundred", "300"), ("four hundred", "400"),
  ("five hundred", "500"), ("six hundred", "600"),
  ("seven hundred", "700"), ("eight hundred", "800"),
  ("nine hundred", "900"),
  ("eleven", "11"), ("twelve", "12"), ("thirteen", "13"),
  ("fourteen", "14"), ("fifteen", "15"), ("sixteen", "16"),
  ("seventeen", "17"), ("eighteen", "18"), ("nineteen", "19"),
  ("ten", "10"), ("twenty", "20"), ("thirty", "30"),
  ("forty", "40"), ("fifty", "50"), ("sixty", "60"),
  ("seventy", "70"), ("eighty", "80"), ("ninety", "90"),
  ("zero", "0"), ("one", "1"), ("two", "2"), ("three", "3"),
  ("four", "4"), ("five", "5"), ("six", "6"), ("seven", "7"),
  ("eight", "8"), ("nine", "9"),
  ("null", "null"), ("true", "true"), ("false", "false"),
  ("empty string", "\"\""),
  ("open paren", "("), ("close paren", ")"),
  ("open bracket", "["), ("close bracket", "]"),
  ("open brace", "\x7b"), ("close brace", "\x7d"),
  ("semicolon", ";"), ("colon", ":"), ("comma", ","),
  ("dot", "."), ("equals", "="), ("plus", "+"), ("minus", "-"),
  ("times", "*"), ("divide", "/")]

/-- Rust's `str::to_lowercase` on the ASCII range (no input considered
here contains non-ASCII cased letters). -/
def rustToLowercase (s : String) : String :=
  ⟨s.data.map Char.toLower⟩

/-- `enhance_transcription` (lines 652–664): lower-case the text, run
the external `text2num` word-numeral converter (the oracle `conv`,
standing for `convert_words_to_numbers`), then apply the ordered
pattern table top to bottom, each pattern replacing all its whole-word
occurrences. -/
def enhance_transcription (conv : String → String) (text : String) : String :=
  let result := rustToLowercase text
  let result := conv result
  NUMBER_PATTERNS.foldl (fun r p => replaceAll p.1 p.2 r) result

/-- C6: the normalizer maps "one thousand" to "1000" — not "1 thousand"
and not "1000and".  The external converter, per its spec, either
rewrites the compound numeral phrase to "1000" itself or leaves it
alone; in the latter case the multi-word phrase rule, first in the
table, converts the whole phrase before any single-token digit rule
("one" → "1") can consume part of it. -/
theorem enhance_one_thousand (conv : String → String)
    (hconv : conv "one thousand" = "1000" ∨ conv "one thousand" = "one thousand") :
    enhance_transcription conv "one thousand" = "1000" := by
  show NUMBER_PATTERNS.foldl (fun r p => replaceAll p.1 p.2 r)
    (conv (rustToLowercase "one thousand")) = "1000"
  have hlower : rustToLowercase "one thousand" = "one thousand" := by decide
  rw [hlower]
  rcases hconv with h | h <;> rw [h] <;> decide

/-- Witness for `enhance_one_thousand`: the identity converter (which
leaves "one thousand" unchanged) satisfies the hypothesis, and the
table alone produces "1000". -/
theorem enhance_one_thousand_witness :
    ((fun s : String => s) "one thousand" = "1000" ∨
      (fun s : String => s) "one thousand" = "one thousand") ∧
    enhance_transcription (fun s => s) "one thousand" = "1000" :=
  ⟨Or.inr rfl, enhance_one_thousand (fun s => s) (Or.inr rfl)⟩

theorem toLower_eq_self_of_not_alpha (c : Char) (h : c.isAlpha = false) :
    c.toLower = c := by
  rw [Char.toLower]
  simp only [Char.isAlpha, Char.isUpper, Char.isLower, Bool.or_eq_false_iff,
    Bool.and_eq_false_iff, decide_eq_false_iff_not, ge_iff_le] at h
  rw [if_neg]
  rintro ⟨h1, h2⟩
  have h1' : 65 ≤ c.val.toNat := h1
  have h2' : c.val.toNat ≤ 90 := h2
  rcases h.1 with h3 | h3
  · rw [UInt32.not_le] at h3
    have := UInt32.toNat_lt_of_lt (n := c.val) (m := 65) (by decide) h3
    omega
  · rw [UInt32.not_le] at h3
    have := UInt32.lt_toNat_of_lt (n := c.val) (m := 90) (by decide) h3
    omega

/-- Strings without letters are fixed by ASCII lower-casing. -/
theorem rustToLowercase_fix (s : String)
    (h : ∀ c ∈ s.data, c.isAlpha = false) : rustToLowercase s = s := by
  have hmap : ∀ l : List Char, (∀ c ∈ l, c.isAlpha = false) →
      l.map Char.toLower = l := by
    intro l hl
    induction l with
    | nil => rfl
    | cons a as ih =>
      simp only [List.map_cons]
      rw [toLower_eq_self_of_not_alpha a (hl a (List.mem_cons_self _ _)),
        ih (fun c hc => hl c (List.mem_cons_of_mem _ hc))]
  rw [rustToLowercase, hmap s.data h]

/-- A whole-word phrase starting with a letter never matches inside a
string containing no letters, so the scan copies the input unchanged. -/
theorem replaceScan_no_alpha (pat repl : List Char)
    (hpat : (pat.head?.map Char.isAlpha).getD false = true) :
    ∀ (fuel : Nat) (prev : Bool) (s : List Char),
      (∀ c ∈ s, c.isAlpha = false) → replaceScan pat repl fuel prev s = s := by
  intro fuel
  induction fuel with
  | zero => intro prev s _; rfl
  | succ n ih =>
    intro prev s h
    cases s with
    | nil => rfl
    | cons c cs =>
      rcases pat with _ | ⟨p, ps⟩
      · simp at hpat
      · have hc : c.isAlpha = false := h c (List.mem_cons_self _ _)
        have hp : p.isAlpha = true := by simpa using hpat
        have hne : (p == c) = false := by
          rw [beq_eq_false_iff_ne]
          intro hpc
          rw [hpc, hc] at hp
          cases hp
        have hpre : List.isPrefixOf (p :: ps) (c :: cs) = false := by
          simp [List.isPrefixOf, hne]
        simp only [replaceScan, hpre, Bool.and_false, Bool.false_and,
          Bool.false_eq_true, if_false]
        rw [ih _ cs (fun d hd => h d (List.mem_cons_of_mem _ hd))]

/-- No pattern of a table whose phrases all start with a letter can fire
on a string containing no letters: the fold leaves it unchanged. -/
theorem foldl_replaceAll_no_alpha (ps : List (String × String))
    (hps : ∀ p ∈ ps, (p.1.data.head?.map Char.isAlpha).getD false = true) :
    ∀ s : String, (∀ c ∈ s.data, c.isAlpha = false) →
      ps.foldl (fun r p => replaceAll p.1 p.2 r) s = s := by
  induction ps with
  | nil => intro s _; rfl
  | cons p rest ih =>
    intro s h
    have hfix : replaceAll p.1 p.2 s = s := by
      show (⟨replaceScan p.1.data p.2.data s.data.length false s.data⟩ : String) = s
      rw [replaceScan_no_alpha p.1.data p.2.data (hps p (List.mem_cons_self _ _)) _ _ _ h]
    rw [List.foldl_cons, hfix]
    exact ih (fun q hq => hps q (List.mem_cons_of_mem _ hq)) s h

/-- C8: the normalizer is idempotent on outputs made only of digit
strings and literal symbol tokens (no letters): lower-casing fixes such
text, every table phrase starts with a letter so no rule can fire, and
any converter that — as its spec requires — leaves numeral-free text
unchanged makes the second run return its input. -/
theorem enhance_idempotent_symbols (conv : String → String) (s : String)
    (halpha : ∀ c ∈ (enhance_transcription conv s).data, c.isAlpha = false)
    (hconv : conv (enhance_transcription conv s) = enhance_transcription conv s) :
    enhance_transcription conv (enhance_transcription conv s)
      = enhance_transcription conv s := by
  show NUMBER_PATTERNS.foldl (fun r p => replaceAll p.1 p.2 r)
    (conv (rustToLowercase (enhance_transcription conv s)))
      = enhance_transcription conv s
  rw [rustToLowercase_fix _ halpha, hconv]
  exact foldl_replaceAll_no_alpha NUMBER_PATTERNS (by decide) _ halpha

/-- Witness for `enhance_idempotent_symbols`: with the identity
converter, the normalizer sends "1000" to "1000" — a letter-free output
— and re-normalizing it yields "1000" again. -/
theorem enhance_idempotent_symbols_witness :
    (∀ c ∈ (enhance_transcription (fun s => s) "1000").data, c.isAlpha = false) ∧
    ((fun s : String => s) (enhance_transcription (fun s => s) "1000")
        = enhance_transcription (fun s => s) "1000") ∧
    enhance_transcription (fun s => s) (enhance_transcription (fun s => s) "1000")
      = enhance_transcription (fun s => s) "1000" :=
  ⟨by decide, rfl, enhance_idempotent_symbols (fun s => s) "1000" (by decide) rfl⟩

/-! ## Typing Emitter (`TextTyper`, main.rs lines 107–150) and the
result-consumption loop (lines 775–791)

`enigo` is the external keystroke-injection boundary; the observable
effect of `TextTyper` methods is the sequence of calls made to it,
recorded as `Keystroke` values.  The only state is the tracked
partial-display text.  Rust's `String::len` counts UTF-8 bytes,
modelled by `String.utf8ByteSize`. -/

/-- The named keys the source injects (`enigo::Key`). -/
inductive EnigoKey where
  | Backspace
  | Space
deriving DecidableEq

/-- One call to the `enigo` boundary: `enigo.text(s)` (literal text) or
`enigo.key(k, Direction::Click)`. -/
inductive Keystroke where
  | text (s : String)
  | key (k : EnigoKey)
deriving DecidableEq

/-- `TextTyper` (lines 107–110): its tracked partial-display text.  (The
`enigo` handle carries no modelled state.) -/
structure TextTyper where
  last_partial : String
deriving DecidableEq

/-- `TextTyper::new` (lines 113–121): the tracked text starts empty. -/
def TextTyper.new : TextTyper := ⟨""⟩

/-- `TextTyper::clear_partial_text` (lines 144–149): one backspace per
byte of the tracked partial text (`for _ in 0..self.last_partial.len()`;
Rust `String::len` is the UTF-8 byte count).  Does not modify the
tracked text. -/
def clear_partial_text : TextTyper → List Keystroke
  | ⟨lp⟩ => List.replicate lp.utf8ByteSize (Keystroke.key EnigoKey.Backspace)

/-- `TextTyper::type_text` (lines 123–142): a result below the
confidence threshold is ignored; a final result first clears a
non-empty tracked partial with backspaces, then injects its text and a
single space and leaves the tracked partial empty; a non-final result
does nothing (the partial-typing branch is an explicit no-op in the
source).  Returns the new typer state and the emitted keystrokes. -/
def type_text (typer : TextTyper) (result : TranscriptionResult)
    (confidence_threshold : ℚ) : TextTyper × List Keystroke :=
  if result.confidence < confidence_threshold then (typer, [])
  else if result.is_final then
    match typer with
    | ⟨lp⟩ =>
      let cleared := if !lp.isEmpty then clear_partial_text ⟨lp⟩ else []
      (⟨""⟩, cleared ++ [Keystroke.text result.text, Keystroke.key EnigoKey.Space])
  else (typer, [])

/-- One iteration of the result-consumption loop (lines 775–791): a
final result whose confidence is ≥ the threshold is normalized by
`enhance_transcription` and, when a typer is present, handed to
`type_text` with the enhanced text; every other result produces nothing
(a non-final result is at most printed in debug mode, never typed).
Returns how many times the normalizer ran, the keystrokes emitted, and
the updated typer. -/
def consume_result (typer : Option TextTyper) (result : TranscriptionResult)
    (confidence_threshold : ℚ) (conv : String → String) :
    Nat × List Keystroke × Option TextTyper :=
  if result.is_final = true ∧ confidence_threshold ≤ result.confidence then
    let enhanced := enhance_transcription conv result.text
    match typer with
    | some t =>
      let r := type_text t ⟨enhanced, result.confidence, result.is_final⟩
        confidence_threshold
      (1, r.2, some r.1)
    | none => (1, [], none)
  else (0, [], typer)

/-- Typer states reachable in the program: created by `TextTyper::new`,
then only ever modified by `type_text` (the sole method that writes the
tracked text). -/
inductive TyperReachable : TextTyper → Prop where
  | init : TyperReachable TextTyper.new
  | step (t : TextTyper) (result : TranscriptionResult) (θ : ℚ) :
      TyperReachable t → TyperReachable (type_text t result θ).1

/-- C2: with a typer present, the downstream path — normalizer
invocation and keystroke emission — runs if and only if the result is
final and its confidence is ≥ the configured threshold; equality with
the threshold is accepted, and below the gate there are zero keystrokes
and zero normalizer invocations. -/
theorem confidence_gate_iff (t : TextTyper) (result : TranscriptionResult)
    (θ : ℚ) (conv : String → String) :
    (0 < (consume_result (some t) result θ conv).1 ∨
      (consume_result (some t) result θ conv).2.1 ≠ []) ↔
      (result.is_final = true ∧ θ ≤ result.confidence) := by
  by_cases hgate : result.is_final = true ∧ θ ≤ result.confidence
  · simp only [consume_result, if_pos hgate]
    exact ⟨fun _ => hgate, fun _ => Or.inl (by norm_num)⟩
  · simp only [consume_result, if_neg hgate]
    simp [hgate]

/-- C5 counterexample: with tracked partial "ééééé" — 5 characters but
10 UTF-8 bytes — a gated final result triggers 10 retraction
keystrokes, one per byte rather than one per character (Rust
`String::len` counts bytes). -/
theorem type_text_retraction_counterexample :
    (type_text ⟨"ééééé"⟩ ⟨"ok", 1, true⟩ 0).2
      = List.replicate 10 (Keystroke.key EnigoKey.Backspace)
        ++ [Keystroke.text "ok", Keystroke.key EnigoKey.Space] ∧
    ("ééééé" : String).length = 5 ∧ (10 : Nat) ≠ 5 := by
  refine ⟨?_, by decide, by decide⟩
  rw [type_text, if_neg (show ¬((1 : ℚ) < 0) by norm_num)]
  decide

/-- C5 (amended): on a gated final result (confidence ≥ threshold) with
a non-empty tracked partial, `type_text` emits exactly one retraction
(backspace) keystroke per UTF-8 byte of the tracked text — which is one
per character whenever the tracked text is ASCII, e.g. exactly 5 for an
ASCII partial of length 5 — followed by the final text as literal
characters and exactly one word-separator keystroke, and the tracked
partial text is empty afterwards. -/
theorem type_text_retraction (lp : String) (result : TranscriptionResult)
    (θ : ℚ) (hconf : θ ≤ result.confidence) (hfin : result.is_final = true)
    (hne : lp ≠ "") :
    type_text ⟨lp⟩ result θ
      = (⟨""⟩, List.replicate lp.utf8ByteSize (Keystroke.key EnigoKey.Backspace)
          ++ [Keystroke.text result.text, Keystroke.key EnigoKey.Space]) := by
  have hemp : lp.isEmpty = false := by
    rcases h : lp.isEmpty with _ | _
    · rfl
    · exact absurd ((String.isEmpty_iff lp).mp h) hne
  rw [type_text, if_neg (not_lt.mpr hconf)]
  simp only [hfin, if_true, hemp, Bool.not_false, clear_partial_text]

/-- Witness for `type_text_retraction`: the ASCII partial "hello" of
length 5 yields exactly 5 backspaces, then the text and one space. -/
theorem type_text_retraction_witness :
    ((0 : ℚ) ≤ (1 : ℚ)) ∧ (("hello" : String) ≠ "") ∧
    type_text ⟨"hello"⟩ ⟨"ok", 1, true⟩ 0
      = (⟨""⟩, List.replicate ("hello" : String).utf8ByteSize
            (Keystroke.key EnigoKey.Backspace)
          ++ [Keystroke.text "ok", Keystroke.key EnigoKey.Space]) ∧
    ("hello" : String).utf8ByteSize = 5 :=
  ⟨by norm_num, by decide,
    type_text_retraction "hello" ⟨"ok", 1, true⟩ 0 (by norm_num) rfl (by decide),
    by decide⟩

/-- C9 counterexample: a partial (non-final) event does not update the
tracked partial text: the non-final branch of `type_text` is a no-op,
so after a partial event with text "hi" (confidence 1/2, above a
threshold of 0, so not discarded by the confidence check) the tracked
text is still "", not "hi". -/
theorem partial_no_update_counterexample :
    (type_text ⟨""⟩ ⟨"hi", 1/2, false⟩ 0).1 = ⟨""⟩ ∧
    (⟨""⟩ : TextTyper) ≠ ⟨"hi"⟩ := by
  constructor
  · rw [type_text, if_neg (show ¬((1 : ℚ)/2 < 0) by norm_num)]
    decide
  · decide

/-- C9 (amended): partial (non-final) events leave the Typing Emitter's
tracked partial text unchanged — the source's partial branch
deliberately does nothing — while commit of a gated final result clears
it: afterwards the tracked text is empty. -/
theorem type_text_partial_noop_final_clears (t : TextTyper)
    (result : TranscriptionResult) (θ : ℚ) :
    (result.is_final = false → (type_text t result θ).1 = t) ∧
    (result.is_final = true → θ ≤ result.confidence →
      (type_text t result θ).1 = ⟨""⟩) := by
  constructor
  · intro hfin
    rw [type_text]
    by_cases hlt : result.confidence < θ
    · rw [if_pos hlt]
    · rw [if_neg hlt]
      simp [hfin]
  · intro hfin hconf
    rw [type_text, if_neg (not_lt.mpr hconf)]
    cases t with
    | mk lp => simp [hfin]

/-- Witness for `type_text_partial_noop_final_clears`: a partial event
"x" leaves an empty tracked text empty, and a gated final result
received with tracked text "abc" leaves the tracked text empty. -/
theorem type_text_partial_noop_witness :
    (type_text ⟨""⟩ ⟨"x", 1/2, false⟩ 0).1 = ⟨""⟩ ∧
    (type_text ⟨"abc"⟩ ⟨"done", 1, true⟩ 0).1 = ⟨""⟩ :=
  ⟨(type_text_partial_noop_final_clears ⟨""⟩ ⟨"x", 1/2, false⟩ 0).1 rfl,
    (type_text_partial_noop_final_clears ⟨"abc"⟩ ⟨"done", 1, true⟩ 0).2 rfl
      (by norm_num)⟩

/-- C10: in every reachable state of the program the Typing Emitter's
tracked partial text is the empty string — no code path ever assigns it
a non-empty value — and therefore `clear_partial_text` emits no
backspace keystroke under the default policy. -/
theorem reachable_partial_empty (t : TextTyper) (h : TyperReachable t) :
    t = ⟨""⟩ ∧ clear_partial_text t = [] := by
  suffices ht : t = ⟨""⟩ by
    refine ⟨ht, ?_⟩
    rw [ht]
    rfl
  induction h with
  | init => rfl
  | step t result θ _ ih =>
    rw [ih, type_text]
    by_cases hlt : result.confidence < θ
    · rw [if_pos hlt]
    · rw [if_neg hlt]
      cases hfin : result.is_final <;> simp

/-- Witness for `reachable_partial_empty`: the initial state reached by
`TextTyper::new` has an empty tracked text and clears nothing. -/
theorem reachable_partial_empty_witness :
    TyperReachable (⟨""⟩ : TextTyper) ∧
    ((⟨""⟩ : TextTyper) = ⟨""⟩ ∧ clear_partial_text ⟨""⟩ = []) :=
  ⟨TyperReachable.init, reachable_partial_empty ⟨""⟩ TyperReachable.init⟩
